import Mathlib

/-!
Verification of the bot-wrangler-traefik-plugin core against its
natural-language specification.

Shallow embedding of the Go sources:
  * `pkg/botmanager/botmanager.go` — the user-agent result cache
    (`userAgentCache`), the manager state (`BotUAManager`), `Search`,
    `RenderRobotsTxt`, `refreshBotIndex`, `update`, `slowSearch`,
    `fastSearch`;
  * `pkg/ahocorasick/ahocorasick.go` — trie construction, suffix links and
    `Search`;
  * `pkg/parser/parser.go` — the exclusion-format (robots.txt) parser.

Go maps are embedded as association lists whose observable behaviour
(lookup, size, key set) matches map semantics: assignment removes any
previous binding of the key and appends the new one, deletion removes the
binding.  Where Go iterates over a map (whose iteration order is
unspecified), the embedding takes the iteration order as an explicit list
parameter; theorems that depend on it quantify over permutations of the
key set.  Nil pointers and panics are embedded as `Option`/`none`.
-/

namespace BotWrangler

/-! ## Association-list model of Go maps (string-keyed) -/

/-- Removing a key from a Go map (`delete(m, k)`). -/
def mapErase {α : Type} (k : String) (l : List (String × α)) : List (String × α) :=
  l.filter (fun p => !(p.1 == k))

/-- Go map assignment `m[k] = v`: the key is bound exactly once afterwards. -/
def mapAssign {α : Type} (k : String) (v : α) (l : List (String × α)) :
    List (String × α) :=
  mapErase k l ++ [(k, v)]

/-- Go map read `v, ok := m[k]` (the `ok` form). -/
def mapLookup {α : Type} (k : String) (l : List (String × α)) : Option α :=
  (l.find? (fun p => p.1 == k)).map (·.2)

/-- The keys currently bound in the map model. -/
def keysOf {α : Type} (l : List (String × α)) : List String := l.map (·.1)

/-! ## `userAgentCache` (botmanager.go lines 23-63)

```go
type userAgentCache struct {
    cursor int
    data   map[string]string
    keys   []*string
    limit  int
    lock   sync.RWMutex
}
```
The mutex only serialises accesses and has no sequential content, so it is
dropped.  `keys` is a slice of string pointers; `nil` entries are `none`. -/

structure userAgentCache where
  cursor : Nat
  data : List (String × String)
  keys : List (Option String)
  limit : Nat

/-- `newUserAgentCache` (botmanager.go lines 31-37). -/
def newUserAgentCache (s : Nat) : userAgentCache :=
  { cursor := 0, data := [], keys := List.replicate s none, limit := s }

/-- `userAgentCache.get` (botmanager.go lines 39-44). -/
def userAgentCache.get (c : userAgentCache) (k : String) : String × Bool :=
  match mapLookup k c.data with
  | some v => (v, true)
  | none => ("", false)

/-- The slot index used by `set` after the rollover reset
(`if c.cursor >= c.limit { c.cursor = 0 }`). -/
def userAgentCache.slot (c : userAgentCache) : Nat :=
  if c.limit ≤ c.cursor then 0 else c.cursor

/-- The pointer read from the ring slot (`p := c.keys[c.cursor]`).  With
`limit = 0` the Go indexing panics; the `getD ... none` default is never
exercised by the claims (all assume a positive capacity). -/
def userAgentCache.victim (c : userAgentCache) : Option String :=
  c.keys.getD c.slot none

/-- `userAgentCache.set` (botmanager.go lines 46-63): free the slot's old
key if the slot is occupied, then store the new binding and advance. -/
def userAgentCache.set (c : userAgentCache) (k v : String) : userAgentCache :=
  { cursor := c.slot + 1
    data := mapAssign k v (match c.victim with
      | some p => mapErase p c.data
      | none => c.data)
    keys := c.keys.set c.slot (some k)
    limit := c.limit }

/-- A finite history of cache operations, as in the spec's
"finite sequence of get and set operations". -/
inductive CacheOp where
  | setOp (k v : String)
  | getOp (k : String)

/-- Running a history of operations against a cache.  `get` takes a read
lock and performs a map read only, so it leaves the state unchanged. -/
def runCacheOps (c : userAgentCache) : List CacheOp → userAgentCache
  | [] => c
  | .setOp k v :: t => runCacheOps (c.set k v) t
  | .getOp _ :: t => runCacheOps c t

/-! ### Invariant carried through every cache history -/

/-- Every key bound in `data` is referenced by some ring slot, the bound
keys are distinct, and the ring has exactly `limit` slots. -/
def cacheInv (c : userAgentCache) : Prop :=
  (∀ k, k ∈ keysOf c.data → some k ∈ c.keys) ∧
    (keysOf c.data).Nodup ∧ c.keys.length = c.limit

lemma keysOf_mapErase_subset (k : String) {α : Type} (l : List (String × α)) :
    ∀ x, x ∈ keysOf (mapErase k l) → x ∈ keysOf l := by
  intro x hx
  simp only [keysOf, mapErase, List.mem_map] at hx ⊢
  obtain ⟨p, hp, rfl⟩ := hx
  exact ⟨p, (List.mem_filter.mp hp).1, rfl⟩

lemma not_mem_keysOf_mapErase (k : String) {α : Type} (l : List (String × α)) :
    k ∉ keysOf (mapErase k l) := by
  simp only [keysOf, mapErase, List.mem_map]
  rintro ⟨p, hp, rfl⟩
  have := (List.mem_filter.mp hp).2
  simp at this

lemma nodup_keysOf_mapErase (k : String) {α : Type} (l : List (String × α))
    (h : (keysOf l).Nodup) : (keysOf (mapErase k l)).Nodup := by
  have hsub : List.Sublist (mapErase k l) l := List.filter_sublist l
  unfold keysOf at h ⊢
  exact List.Nodup.sublist (List.Sublist.map _ hsub) h

lemma nodup_keysOf_mapAssign (k : String) {α : Type} (v : α) (l : List (String × α))
    (h : (keysOf l).Nodup) : (keysOf (mapAssign k v l)).Nodup := by
  have : keysOf (mapAssign k v l) = keysOf (mapErase k l) ++ [k] := by
    simp [keysOf, mapAssign]
  rw [this]
  refine List.Nodup.append (nodup_keysOf_mapErase k l h) (List.nodup_singleton k) ?_
  intro x hx hx'
  rw [List.mem_singleton] at hx'
  rw [hx'] at hx
  exact not_mem_keysOf_mapErase k l hx

lemma keysOf_mapAssign_mem (k : String) {α : Type} (v : α) (l : List (String × α)) :
    ∀ x, x ∈ keysOf (mapAssign k v l) → x = k ∨ (x ∈ keysOf l ∧ x ≠ k) := by
  intro x hx
  have : keysOf (mapAssign k v l) = keysOf (mapErase k l) ++ [k] := by
    simp [keysOf, mapAssign]
  rw [this, List.mem_append, List.mem_singleton] at hx
  rcases hx with hx | hx
  · right
    refine ⟨keysOf_mapErase_subset k l x hx, fun hxk => ?_⟩
    rw [hxk] at hx
    exact not_mem_keysOf_mapErase k l hx
  · exact Or.inl hx

lemma cacheInv_set (c : userAgentCache) (k v : String) (hpos : 0 < c.limit)
    (h : cacheInv c) : cacheInv (c.set k v) := by
  obtain ⟨hmem, hnd, hlen⟩ := h
  have hcurlt : c.slot < c.keys.length := by
    rw [hlen]
    unfold userAgentCache.slot
    split
    · exact hpos
    · omega
  have hvic : c.victim = c.keys.get ⟨c.slot, hcurlt⟩ := by
    unfold userAgentCache.victim
    rw [List.getD_eq_getElem?_getD, List.getElem?_eq_getElem hcurlt]
    rfl
  set d : List (String × String) := (match c.victim with
    | some p => mapErase p c.data
    | none => c.data) with hd
  have hdata : (c.set k v).data = mapAssign k v d := rfl
  have hkeys : (c.set k v).keys = c.keys.set c.slot (some k) := rfl
  have hdsub : ∀ x, x ∈ keysOf d → x ∈ keysOf c.data := by
    intro x hx
    rw [hd] at hx
    revert hx
    cases c.victim with
    | some p => exact keysOf_mapErase_subset p c.data x
    | none => exact id
  have hdnd : (keysOf d).Nodup := by
    rw [hd]
    cases c.victim with
    | some p => exact nodup_keysOf_mapErase p c.data hnd
    | none => exact hnd
  have hdslot : ∀ x, x ∈ keysOf d → c.keys.get ⟨c.slot, hcurlt⟩ ≠ some x := by
    intro x hx
    rw [hd, hvic] at hx
    cases hk : c.keys.get ⟨c.slot, hcurlt⟩ with
    | none => simp
    | some p =>
      rw [hk] at hx
      intro hcontra
      have hxp : p = x := by simpa using hcontra
      subst hxp
      exact not_mem_keysOf_mapErase p c.data hx
  refine ⟨?_, ?_, ?_⟩
  · intro x hx
    rw [hdata] at hx
    rw [hkeys]
    rcases keysOf_mapAssign_mem k v d x hx with rfl | ⟨hxd, _⟩
    · refine List.mem_iff_getElem.mpr ⟨c.slot, by simpa using hcurlt, ?_⟩
      exact List.getElem_set_self (by simpa using hcurlt)
    · -- x was bound before; its slot is not the overwritten one
      have hx0 : some x ∈ c.keys := hmem x (hdsub x hxd)
      obtain ⟨i, hi, hix⟩ := List.getElem_of_mem hx0
      have hicur : i ≠ c.slot := by
        intro hieq
        subst hieq
        exact hdslot x hxd hix
      refine List.mem_iff_getElem.mpr ⟨i, by simpa using hi, ?_⟩
      rw [List.getElem_set_ne (Ne.symm hicur)]
      exact hix
  · rw [hdata]
    exact nodup_keysOf_mapAssign k v d hdnd
  · rw [hkeys]
    simpa using hlen

lemma cacheInv_length_le (c : userAgentCache) (h : cacheInv c) :
    c.data.length ≤ c.limit := by
  obtain ⟨hmem, hnd, hlen⟩ := h
  have h1 : c.data.length = (keysOf c.data).length := by
    simp [keysOf]
  have h2 : (keysOf c.data).length = (keysOf c.data).toFinset.card :=
    (List.toFinset_card_of_nodup hnd).symm
  have hsub : (keysOf c.data).toFinset ⊆ (c.keys.filterMap id).toFinset := by
    intro x hx
    rw [List.mem_toFinset] at hx ⊢
    rw [List.mem_filterMap]
    exact ⟨some x, hmem x hx, rfl⟩
  calc c.data.length = (keysOf c.data).toFinset.card := by rw [h1, h2]
    _ ≤ (c.keys.filterMap id).toFinset.card := Finset.card_le_card hsub
    _ ≤ (c.keys.filterMap id).length := List.toFinset_card_le _
    _ ≤ c.keys.length := List.length_filterMap_le _ _
    _ = c.limit := hlen

lemma cacheInv_runCacheOps (ops : List CacheOp) (c : userAgentCache)
    (hpos : 0 < c.limit) (h : cacheInv c) : cacheInv (runCacheOps c ops) := by
  induction ops generalizing c with
  | nil => exact h
  | cons op t ih =>
    cases op with
    | setOp k v =>
      have hlim : (c.set k v).limit = c.limit := rfl
      exact ih (c.set k v) (hlim ▸ hpos) (cacheInv_set c k v hpos h)
    | getOp k => exact ih c hpos h

lemma runCacheOps_limit (ops : List CacheOp) (c : userAgentCache) :
    (runCacheOps c ops).limit = c.limit := by
  induction ops generalizing c with
  | nil => rfl
  | cons op t ih =>
    cases op with
    | setOp k v => simpa using ih (c.set k v)
    | getOp k => exact ih c

/-- C5.  For every positive capacity and every operation history, the
cache's map holds at most `capacity` entries. -/
theorem c5_cache_size_bound (cap : Nat) (hpos : 0 < cap) (ops : List CacheOp) :
    (runCacheOps (newUserAgentCache cap) ops).data.length ≤ cap := by
  have hinv0 : cacheInv (newUserAgentCache cap) := by
    refine ⟨?_, ?_, ?_⟩
    · intro k hk
      simp [newUserAgentCache, keysOf] at hk
    · simp [newUserAgentCache, keysOf]
    · simp [newUserAgentCache]
  have hinv := cacheInv_runCacheOps ops (newUserAgentCache cap) hpos hinv0
  have := cacheInv_length_le _ hinv
  rwa [runCacheOps_limit] at this

/-- Witness for C5 at a concrete capacity and history. -/
theorem c5_cache_size_bound_witness :
    (runCacheOps (newUserAgentCache 1)
      [.setOp "A" "", .setOp "B" "", .getOp "A"]).data.length ≤ 1 :=
  c5_cache_size_bound 1 (by decide) [.setOp "A" "", .setOp "B" "", .getOp "A"]

lemma mapLookup_mapAssign_self (k : String) {α : Type} (v : α) (l : List (String × α)) :
    mapLookup k (mapAssign k v l) = some v := by
  unfold mapLookup mapAssign
  have hnone : (mapErase k l).find? (fun p => p.1 == k) = none := by
    rw [List.find?_eq_none]
    intro p hp
    have := (List.mem_filter.mp hp).2
    simpa using this
  rw [List.find?_append, hnone]
  simp

/-- C6 counterexample.  With capacity 2, set "A", "B", "B": the third set
overwrites the ring slot still holding "A", so the map drops to a single
entry while both slots reference "B".  The fourth set then evicts "B"
although the cache holds 1 < 2 entries — an eviction below capacity,
refuting "evicts ... only when the cache is at capacity". -/
theorem c6_counterexample :
    (runCacheOps (newUserAgentCache 2)
        [.setOp "A" "", .setOp "B" "", .setOp "B" ""]).data.length = 1 ∧
    ((runCacheOps (newUserAgentCache 2)
        [.setOp "A" "", .setOp "B" "", .setOp "B" ""]).get "B").2 = true ∧
    ((runCacheOps (newUserAgentCache 2)
        [.setOp "A" "", .setOp "B" "", .setOp "B" "", .setOp "C" ""]).get "B").2
      = false := by
  decide

/-- C6 amended.  `Set(k,v)` always installs the binding `k ↦ v`; the key
held in the ring slot being overwritten is deleted when that slot is
occupied (with pairwise-distinct keys this is the oldest inserted key and
the slot is only occupied at capacity, but with repeated keys an eviction
can happen below capacity).  The concrete capacity-1 scenario behaves as
stated: after Set("A","") then Set("B",""), Get("A") misses and Get("B")
returns ("", true). -/
theorem c6_amended :
    (∀ (c : userAgentCache) (k v : String), (c.set k v).get k = (v, true)) ∧
    ((((newUserAgentCache 1).set "A" "").set "B" "").get "A" = ("", false) ∧
      (((newUserAgentCache 1).set "A" "").set "B" "").get "B" = ("", true)) := by
  constructor
  · intro c k v
    have hdata : (c.set k v).data = mapAssign k v (match c.victim with
      | some p => mapErase p c.data
      | none => c.data) := rfl
    unfold userAgentCache.get
    rw [hdata, mapLookup_mapAssign_self]
  · constructor
    · decide
    · decide

/-! ## Exclusion-format parser (parser.go lines 17-27, 29-66, 172-217)

The Go scanner (`bufio.Scanner` with the default line splitter) feeds the
parser one line at a time, so the embedding takes the list of lines.  Each
directive regex `(?im)(?:^key\s?:\s?)(.*)$` is embedded as a deterministic
matcher: a case-insensitive match of the key at the start of the line, at
most one whitespace character (`\s?`), a colon, at most one whitespace
character, and the remainder of the line as the captured token.  The
case fold is the per-character ASCII fold `Char.toLower`; Go's regexp uses
Unicode simple folding, which agrees on the ASCII directive keywords used
here. -/

structure BotMetadata where
  Operator : Option String
  Respect : Option String
  Function : Option String
  Frequency : Option String
  Description : Option String
deriving DecidableEq

instance : Inhabited BotMetadata := ⟨⟨none, none, none, none, none⟩⟩

/-- `parser.BotUserAgent`, field order as in the Go struct. -/
structure BotUserAgent where
  DisallowPath : List String
  AllowPath : List String
  JSONMetadata : BotMetadata
deriving DecidableEq

instance : Inhabited BotUserAgent := ⟨⟨[], [], default⟩⟩

/-- `parser.RobotsIndex`: a Go map from bot name to entry. -/
abbrev RobotsIndex := List (String × BotUserAgent)

/-- `parser.batchEntry`: one logical robots.txt group under construction. -/
structure batchEntry where
  ua : List String
  allow : List String
  disallow : List String

/-- `RobotsIndex.addTxtRule` (parser.go lines 62-66): assign every pending
user agent the group's allow and disallow lists. -/
def addTxtRule (r : RobotsIndex) (e : batchEntry) : RobotsIndex :=
  e.ua.foldl (fun r u => mapAssign u ⟨e.disallow, e.allow, default⟩ r) r

/-- Go's regexp `\s` character class (`[\t\n\f\r ]`). -/
def isWsGo (c : Char) : Bool :=
  c == '\t' || c == '\n' || c == '\x0C' || c == '\r' || c == ' '

/-- Case-insensitive removal of a fixed lowercase keyword from the front
of the line (the anchored `(?i:^key)` part of the directive regex). -/
def dropPrefixCI : List Char → List Char → Option (List Char)
  | [], rest => some rest
  | _ :: _, [] => none
  | kc :: ks, c :: cs => if c.toLower = kc then dropPrefixCI ks cs else none

/-- The `\s?:` part: at most one whitespace character, then the colon. -/
def afterColon : List Char → Option (List Char)
  | ':' :: cs => some cs
  | c :: ':' :: cs => if isWsGo c then some cs else none
  | _ => none

/-- The `\s?(.*)$` part: the greedy optional whitespace is consumed and
the rest of the line is the captured submatch. -/
def captureRest (l : List Char) : List Char :=
  match l with
  | c :: cs => if isWsGo c then cs else l
  | [] => []

/-- `re.FindStringSubmatch(l)[1]` for `(?im)(?:^key\s?:\s?)(.*)$`
(`none` when the regex does not match the line). -/
def matchDirective (key : List Char) (l : String) : Option String :=
  (dropPrefixCI key l.data).bind fun r1 =>
    (afterColon r1).map fun r2 => String.mk (captureRest r2)

/-- `regexUserAgent` applied to one line. -/
def matchUa (l : String) : Option String := matchDirective "user-agent".data l

/-- `regexAllowRule` applied to one line. -/
def matchAllow (l : String) : Option String := matchDirective "allow".data l

/-- `regexDisallowRule` applied to one line. -/
def matchDisallow (l : String) : Option String := matchDirective "disallow".data l

/-- The scanner loop of `robotsTxtParse` (parser.go lines 183-215),
carrying the accumulated index, the pending `batchEntry` and the `ua` /
`rule` flags. -/
def robotsTxtParseLoop (rIndex : RobotsIndex) (e : batchEntry) (ua rule : Bool) :
    List String → RobotsIndex
  | [] => if rule then addTxtRule rIndex e else rIndex
  | l :: ls =>
    if (ua || rule) && (matchAllow l).isSome then
      robotsTxtParseLoop rIndex ⟨e.ua, e.allow ++ [(matchAllow l).getD ""], e.disallow⟩
        false true ls
    else if (ua || rule) && (matchDisallow l).isSome then
      robotsTxtParseLoop rIndex ⟨e.ua, e.allow, e.disallow ++ [(matchDisallow l).getD ""]⟩
        false true ls
    else
      match matchUa l with
      | some u =>
        robotsTxtParseLoop (if rule then addTxtRule rIndex e else rIndex)
          ⟨(if rule then (⟨[], [], []⟩ : batchEntry) else e).ua ++ [u],
            (if rule then (⟨[], [], []⟩ : batchEntry) else e).allow,
            (if rule then (⟨[], [], []⟩ : batchEntry) else e).disallow⟩ true false ls
      | none =>
        robotsTxtParseLoop (if rule then addTxtRule rIndex e else rIndex)
          (if rule then ⟨[], [], []⟩ else e) false false ls

/-- `robotsTxtParse` (parser.go lines 172-217) over the scanned lines. -/
def robotsTxtParse (lines : List String) : RobotsIndex :=
  robotsTxtParseLoop [] ⟨[], [], []⟩ false false lines

/-- C7 counterexample.  The non-directive line "x" arrives while the
pending group holds "A" and no rule has been seen; the Go `default` branch
only resets the pending entry when `rule` is set, so "A" stays pending,
"B" joins the same group, and the later `Disallow: /x` applies to "A" —
although the claim says the break closes the group and rules after it do
not apply to earlier user agents. -/
theorem c7_counterexample :
    mapLookup "A" (robotsTxtParse
        ["User-agent: A", "x", "User-agent: B", "Disallow: /x"])
      = some ⟨["/x"], [], default⟩ := by
  decide

/-! ### Lemmas about the parser loop, used for the amended grouping claim -/

/-- A canonical `User-agent` directive line carrying token `u`. -/
def mkUaLine (u : String) : String := "User-agent: " ++ u

/-- A canonical `Disallow` directive line carrying token `d`. -/
def mkDisallowLine (d : String) : String := "Disallow: " ++ d

/-- A line recognised by none of the three directive regexes. -/
def nonDirective (g : String) : Prop :=
  matchUa g = none ∧ matchAllow g = none ∧ matchDisallow g = none

lemma matchUa_mkUaLine (u : String) : matchUa (mkUaLine u) = some u := rfl

lemma matchAllow_mkUaLine (u : String) : matchAllow (mkUaLine u) = none := rfl

lemma matchDisallow_mkUaLine (u : String) : matchDisallow (mkUaLine u) = none := rfl

lemma matchAllow_mkDisallowLine (d : String) :
    matchAllow (mkDisallowLine d) = none := rfl

lemma matchDisallow_mkDisallowLine (d : String) :
    matchDisallow (mkDisallowLine d) = some d := rfl

lemma loop_nil (idx : RobotsIndex) (e : batchEntry) (ua rule : Bool) :
    robotsTxtParseLoop idx e ua rule []
      = if rule then addTxtRule idx e else idx := rfl

lemma loop_ua_norule (idx : RobotsIndex) (e : batchEntry) (ua : Bool)
    (u : String) (ls : List String) :
    robotsTxtParseLoop idx e ua false (mkUaLine u :: ls)
      = robotsTxtParseLoop idx ⟨e.ua ++ [u], e.allow, e.disallow⟩ true false ls := by
  simp [robotsTxtParseLoop, matchAllow_mkUaLine, matchDisallow_mkUaLine,
    matchUa_mkUaLine]

lemma loop_dis (idx : RobotsIndex) (e : batchEntry) (ua rule : Bool)
    (d : String) (ls : List String) (h : (ua || rule) = true) :
    robotsTxtParseLoop idx e ua rule (mkDisallowLine d :: ls)
      = robotsTxtParseLoop idx ⟨e.ua, e.allow, e.disallow ++ [d]⟩ false true ls := by
  simp [robotsTxtParseLoop, matchAllow_mkDisallowLine, matchDisallow_mkDisallowLine, h]

lemma loop_garbage (idx : RobotsIndex) (e : batchEntry) (ua rule : Bool)
    (g : String) (ls : List String) (h : nonDirective g) :
    robotsTxtParseLoop idx e ua rule (g :: ls)
      = robotsTxtParseLoop (if rule then addTxtRule idx e else idx)
          (if rule then ⟨[], [], []⟩ else e) false false ls := by
  obtain ⟨h1, h2, h3⟩ := h
  simp [robotsTxtParseLoop, h1, h2, h3]

lemma loop_uas (us : List String) (idx : RobotsIndex) (e : batchEntry)
    (ua : Bool) (rest : List String) :
    robotsTxtParseLoop idx e ua false (us.map mkUaLine ++ rest)
      = robotsTxtParseLoop idx ⟨e.ua ++ us, e.allow, e.disallow⟩
          (ua || !us.isEmpty) false rest := by
  induction us generalizing e ua with
  | nil => simp
  | cons u t ih =>
    simp only [List.map_cons, List.cons_append]
    rw [loop_ua_norule, ih ⟨e.ua ++ [u], e.allow, e.disallow⟩ true]
    simp [List.append_assoc]

lemma loop_diss (ds : List String) (idx : RobotsIndex) (e : batchEntry)
    (ua rule : Bool) (rest : List String) (h : (ua || rule) = true)
    (hne : ds ≠ []) :
    robotsTxtParseLoop idx e ua rule (ds.map mkDisallowLine ++ rest)
      = robotsTxtParseLoop idx ⟨e.ua, e.allow, e.disallow ++ ds⟩
          false true rest := by
  induction ds generalizing e ua rule with
  | nil => exact absurd rfl hne
  | cons d t ih =>
    simp only [List.map_cons, List.cons_append]
    rw [loop_dis idx e ua rule d _ h]
    cases t with
    | nil => simp
    | cons d2 t2 =>
      rw [ih ⟨e.ua, e.allow, e.disallow ++ [d]⟩ false true (by simp) (by simp)]
      simp [List.append_assoc]

lemma loop_diss_eof (ds : List String) (idx : RobotsIndex) (e : batchEntry)
    (ua rule : Bool) (h : (ua || rule) = true) (hne : ds ≠ []) :
    robotsTxtParseLoop idx e ua rule (ds.map mkDisallowLine)
      = addTxtRule idx ⟨e.ua, e.allow, e.disallow ++ ds⟩ := by
  have h1 := loop_diss ds idx e ua rule [] h hne
  rw [List.append_nil] at h1
  rw [h1, loop_nil]
  simp

/-! ### Lookup in a committed group -/

lemma find?_mapErase_ne {α : Type} (x u : String) (hxu : x ≠ u)
    (l : List (String × α)) :
    (mapErase x l).find? (fun p => p.1 == u) = l.find? (fun p => p.1 == u) := by
  induction l with
  | nil => rfl
  | cons p t ih =>
    simp only [mapErase, List.filter_cons] at ih ⊢
    by_cases hp : p.1 = x
    · have h2 : (x == u) = false := beq_false_of_ne hxu
      simp [hp, h2, ih, List.find?_cons]
    · by_cases hu : p.1 = u
      · simp [hp, hu, Ne.symm hxu, List.find?_cons]
      · simp [hp, hu, ih, List.find?_cons]

lemma mapLookup_mapAssign_ne {α : Type} (x u : String) (v : α)
    (l : List (String × α)) (hxu : x ≠ u) :
    mapLookup u (mapAssign x v l) = mapLookup u l := by
  unfold mapLookup mapAssign
  rw [List.find?_append, find?_mapErase_ne x u hxu l]
  have h2 : List.find? (fun p => p.1 == u) [(x, v)] = none := by
    simp [hxu]
  rw [h2]
  cases l.find? (fun p => p.1 == u) <;> rfl

lemma mapLookup_foldl_assign_notmem {α : Type} (v : α) (us : List String)
    (idx : List (String × α)) (u : String) (h : u ∉ us) :
    mapLookup u (us.foldl (fun r x => mapAssign x v r) idx) = mapLookup u idx := by
  induction us generalizing idx with
  | nil => rfl
  | cons x t ih =>
    simp only [List.foldl_cons]
    rw [ih (mapAssign x v idx) (fun hc => h (List.mem_cons_of_mem x hc))]
    exact mapLookup_mapAssign_ne x u v idx (fun hc => h (hc ▸ List.mem_cons_self x t))

lemma mapLookup_foldl_assign_mem {α : Type} (v : α) (us : List String)
    (idx : List (String × α)) (u : String) (h : u ∈ us) :
    mapLookup u (us.foldl (fun r x => mapAssign x v r) idx) = some v := by
  induction us generalizing idx with
  | nil => cases h
  | cons x t ih =>
    simp only [List.foldl_cons]
    by_cases hut : u ∈ t
    · exact ih (mapAssign x v idx) hut
    · have hux : u = x := by
        rcases List.mem_cons.mp h with h1 | h1
        · exact h1
        · exact absurd h1 hut
      rw [mapLookup_foldl_assign_notmem v t _ u hut, hux,
        mapLookup_mapAssign_self]

lemma mapLookup_addTxtRule_mem (idx : RobotsIndex) (e : batchEntry)
    (u : String) (h : u ∈ e.ua) :
    mapLookup u (addTxtRule idx e) = some ⟨e.disallow, e.allow, default⟩ :=
  mapLookup_foldl_assign_mem _ e.ua idx u h

lemma mapLookup_addTxtRule_notmem (idx : RobotsIndex) (e : batchEntry)
    (u : String) (h : u ∉ e.ua) :
    mapLookup u (addTxtRule idx e) = mapLookup u idx :=
  mapLookup_foldl_assign_notmem _ e.ua idx u h

/-- C7 amended.  Contiguous `User-agent` lines accumulate into a pending
group, and subsequent `Allow`/`Disallow` lines apply to every user agent
of that group and only to them; a non-directive line (or a new
`User-agent`) arriving after at least one rule closes the group; but a
non-directive line arriving before any rule of the current group does NOT
clear the accumulated user agents — later `User-agent` lines join them and
later rules apply to all of them; and at end of input the pending group is
committed only when it holds at least one rule (a rule-less group is
dropped). -/
theorem c7_amended (us us2 ds ds2 : List String) (g : String)
    (hg : nonDirective g) (hus : us ≠ []) (hus2 : us2 ≠ [])
    (hds : ds ≠ []) (hds2 : ds2 ≠ []) :
    (∀ u ∈ us ++ us2,
      mapLookup u (robotsTxtParse
          (us.map mkUaLine ++ g :: (us2.map mkUaLine ++ ds.map mkDisallowLine)))
        = some ⟨ds, [], default⟩) ∧
    (∀ u, u ∉ us ++ us2 →
      mapLookup u (robotsTxtParse
          (us.map mkUaLine ++ g :: (us2.map mkUaLine ++ ds.map mkDisallowLine)))
        = none) ∧
    (∀ u ∈ us2,
      mapLookup u (robotsTxtParse (us.map mkUaLine ++ ds.map mkDisallowLine
          ++ g :: (us2.map mkUaLine ++ ds2.map mkDisallowLine)))
        = some ⟨ds2, [], default⟩) ∧
    (∀ u ∈ us, u ∉ us2 →
      mapLookup u (robotsTxtParse (us.map mkUaLine ++ ds.map mkDisallowLine
          ++ g :: (us2.map mkUaLine ++ ds2.map mkDisallowLine)))
        = some ⟨ds, [], default⟩) ∧
    robotsTxtParse (us.map mkUaLine) = [] := by
  have hus2e : us2.isEmpty = false := by
    cases us2
    · exact absurd rfl hus2
    · rfl
  have huse : us.isEmpty = false := by
    cases us
    · exact absurd rfl hus
    · rfl
  -- first scenario: break before any rule
  have hparse1 : robotsTxtParse
      (us.map mkUaLine ++ g :: (us2.map mkUaLine ++ ds.map mkDisallowLine))
      = addTxtRule [] ⟨us ++ us2, [], ds⟩ := by
    have s1 : robotsTxtParse
        (us.map mkUaLine ++ g :: (us2.map mkUaLine ++ ds.map mkDisallowLine))
        = robotsTxtParseLoop [] ⟨us, [], []⟩ true false
            (g :: (us2.map mkUaLine ++ ds.map mkDisallowLine)) := by
      unfold robotsTxtParse
      rw [loop_uas]
      simp [huse]
    have s2 : robotsTxtParseLoop [] ⟨us, [], []⟩ true false
        (g :: (us2.map mkUaLine ++ ds.map mkDisallowLine))
        = robotsTxtParseLoop [] ⟨us, [], []⟩ false false
            (us2.map mkUaLine ++ ds.map mkDisallowLine) := by
      rw [loop_garbage _ _ _ _ _ _ hg]
      simp
    have s3 : robotsTxtParseLoop [] ⟨us, [], []⟩ false false
        (us2.map mkUaLine ++ ds.map mkDisallowLine)
        = robotsTxtParseLoop [] ⟨us ++ us2, [], []⟩ true false
            (ds.map mkDisallowLine) := by
      rw [loop_uas]
      simp [hus2e]
    rw [s1, s2, s3, loop_diss_eof ds [] ⟨us ++ us2, [], []⟩ true false rfl hds]
    simp
  -- second scenario: two groups separated by a break after rules
  have hparse2 : robotsTxtParse (us.map mkUaLine ++ ds.map mkDisallowLine
      ++ g :: (us2.map mkUaLine ++ ds2.map mkDisallowLine))
      = addTxtRule (addTxtRule [] ⟨us, [], ds⟩) ⟨us2, [], ds2⟩ := by
    have s1 : robotsTxtParse (us.map mkUaLine ++ ds.map mkDisallowLine
        ++ g :: (us2.map mkUaLine ++ ds2.map mkDisallowLine))
        = robotsTxtParseLoop [] ⟨us, [], []⟩ true false
            (ds.map mkDisallowLine ++ g :: (us2.map mkUaLine ++ ds2.map mkDisallowLine)) := by
      unfold robotsTxtParse
      rw [List.append_assoc, loop_uas]
      simp [huse]
    have s2 : robotsTxtParseLoop [] ⟨us, [], []⟩ true false
        (ds.map mkDisallowLine ++ g :: (us2.map mkUaLine ++ ds2.map mkDisallowLine))
        = robotsTxtParseLoop [] ⟨us, [], ds⟩ false true
            (g :: (us2.map mkUaLine ++ ds2.map mkDisallowLine)) := by
      rw [loop_diss ds [] ⟨us, [], []⟩ true false _ rfl hds]
      simp
    have s3 : robotsTxtParseLoop [] ⟨us, [], ds⟩ false true
        (g :: (us2.map mkUaLine ++ ds2.map mkDisallowLine))
        = robotsTxtParseLoop (addTxtRule [] ⟨us, [], ds⟩) ⟨[], [], []⟩ false false
            (us2.map mkUaLine ++ ds2.map mkDisallowLine) := by
      rw [loop_garbage _ _ _ _ _ _ hg]
      simp
    have s4 : robotsTxtParseLoop (addTxtRule [] ⟨us, [], ds⟩) ⟨[], [], []⟩ false false
        (us2.map mkUaLine ++ ds2.map mkDisallowLine)
        = robotsTxtParseLoop (addTxtRule [] ⟨us, [], ds⟩) ⟨us2, [], []⟩ true false
            (ds2.map mkDisallowLine) := by
      rw [loop_uas]
      simp [hus2e]
    rw [s1, s2, s3, s4,
      loop_diss_eof ds2 _ ⟨us2, [], []⟩ true false rfl hds2]
    simp
  -- third scenario: user agents with no rules are dropped at end of input
  have hparse3 : robotsTxtParse (us.map mkUaLine) = [] := by
    unfold robotsTxtParse
    have h0 : us.map mkUaLine = us.map mkUaLine ++ [] := by simp
    rw [h0, loop_uas us [] ⟨[], [], []⟩ false [], loop_nil]
    simp
  refine ⟨?_, ?_, ?_, ?_, hparse3⟩
  · intro u hu
    rw [hparse1]
    exact mapLookup_addTxtRule_mem [] ⟨us ++ us2, [], ds⟩ u hu
  · intro u hu
    rw [hparse1, mapLookup_addTxtRule_notmem [] ⟨us ++ us2, [], ds⟩ u hu]
    rfl
  · intro u hu
    rw [hparse2]
    exact mapLookup_addTxtRule_mem _ ⟨us2, [], ds2⟩ u hu
  · intro u hu hu2
    rw [hparse2, mapLookup_addTxtRule_notmem _ ⟨us2, [], ds2⟩ u hu2]
    exact mapLookup_addTxtRule_mem [] ⟨us, [], ds⟩ u hu

/-- Witness for C7's amended claim at a concrete instance. -/
theorem c7_amended_witness :
    mapLookup "A" (robotsTxtParse (["A"].map mkUaLine
        ++ "x" :: (["B"].map mkUaLine ++ ["/x"].map mkDisallowLine)))
      = some ⟨["/x"], [], default⟩ :=
  (c7_amended ["A"] ["B"] ["/x"] ["/y"] "x" ⟨rfl, rfl, rfl⟩ (by decide) (by decide)
    (by decide) (by decide)).1 "A" (by decide)

/-! ## Aho-Corasick automaton (ahocorasick.go)

The trie built by `NewFromIndex` contains one node per prefix of a
pattern; a node is identified with its path from the root, stored in
REVERSE (most recent character first), so the node reached by consuming
`w` is represented by `w.reverse`.  A child lookup `curr.next[l]`
succeeds exactly when the extended path is still a prefix of some
pattern.  `endsHere`/`output` are set exactly on the full-pattern nodes
(the Go code never propagates `output` along suffix links).

`setSuffixLink` chases the parent's suffix-link chain reading pointers
stored by the breadth-first `buildLinks`; since BFS processes all
strictly shorter paths first and the computation is deterministic, the
stored pointer of a shorter node equals the value recomputed from
scratch, so the embedding recomputes suffix links recursively.  `none`
embeds a nil-pointer dereference or a non-terminating chase; both are
driven by a structural fuel so that every run is a finite computation,
and C9 shows the fuel chosen by `acSearch` never runs out. -/

/-- Does the trie of `pats` contain the node with reversed path `r`?
(The root is always present, also for an empty pattern set.) -/
def isNode (pats : List (List Char)) (r : List Char) : Bool :=
  r.isEmpty || pats.any (fun p => r.reverse.isPrefixOf p)

/-- `node.output`: some pattern ends at this node. -/
def isOut (pats : List (List Char)) (r : List Char) : Bool :=
  pats.contains r.reverse

/-- `node.endsHere`: the pattern ending at this node, `""` otherwise. -/
def endsHere (pats : List (List Char)) (r : List Char) : String :=
  if isOut pats r then String.mk r.reverse else ""

/-- The `for` loop of `setSuffixLink` (ahocorasick.go lines 88-104).
`slk` resolves the stored suffix link of an already-processed node,
`a` is the node whose link is being computed, `c` its last character,
and `p` the current node of the parent's suffix-link chain (the loop
variable after the reassignment `p = p.suffixLink` is `slk p`).  The
chase fuel embeds the possibility of an endless loop as `none`. -/
def slinkChase (pats : List (List Char)) (slk : List Char → Option (List Char))
    (c : Char) (a : List Char) : Nat → List Char → Option (List Char)
  | 0, _ => none
  | n + 1, p =>
    match slk p with
    | none => none
    | some q =>
      if isNode pats (c :: q) = true ∧ c :: q ≠ a then some (c :: q)
      else
        match slk q with
        | none => none
        | some q2 =>
          if q2 = q then some q
          else slinkChase pats slk c a n q

/-- The suffix link of a node, recomputed recursively (see the section
comment): the root links to itself (`buildLinks`, line 76), and the node
`c :: w` with trie parent `w` is resolved by `setSuffixLink` chasing the
chain starting at `w`. -/
def slink (pats : List (List Char)) : Nat → List Char → Option (List Char)
  | 0 => fun _ => none
  | fuel + 1 => fun w =>
    match w with
    | [] => some []
    | c :: w' => slinkChase pats (slink pats fuel) c (c :: w') fuel w'

/-- The `for _, l := range s` loop of `Search` (ahocorasick.go lines
59-70): follow the child when it exists, otherwise follow the CURRENT
node's suffix link — consuming the character either way, without
re-attempting the child — and stop at the first output node reached. -/
def searchLoop (pats : List (List Char)) (slFuel : Nat) :
    List Char → List Char → Option (String × Bool)
  | curr, [] => some (endsHere pats curr, false)
  | curr, l :: rest =>
    match (if isNode pats (l :: curr) then some (l :: curr)
           else slink pats slFuel curr) with
    | none => none
    | some nxt =>
      if isOut pats nxt then some (endsHere pats nxt, true)
      else searchLoop pats slFuel nxt rest

/-- Fuel that C9 proves sufficient for every suffix-link resolution:
two more than the longest pattern (no trie path is longer than the
longest pattern). -/
def slinkFuel (pats : List (List Char)) : Nat :=
  (pats.map List.length).foldr max 0 + 2

/-- `Search` (ahocorasick.go lines 56-72) on the automaton built by
`NewFromIndex` from the given pattern set (the keys of the
`RobotsIndex`; map iteration order does not affect the resulting trie,
which contains exactly the pattern prefixes).  Go iterates the input
string by runes; `String.data` iterates the same scalar values. -/
def acSearch (pats : List String) (s : String) : Option (String × Bool) :=
  searchLoop (pats.map String.data) (slinkFuel (pats.map String.data)) [] s.data

/-- `strings.Contains(hay, needle)`: the needle occurs as a contiguous
substring.  `strings.Contains` works on bytes; on valid UTF-8,
byte-level containment of a whole pattern coincides with rune-level
containment. -/
def containsSub (needle : List Char) : List Char → Bool
  | [] => needle.isEmpty
  | h :: t => needle.isPrefixOf (h :: t) || containsSub needle t

/-- `BotUAManager.slowSearch` (botmanager.go lines 211-222): first key of
the index (in map iteration order, here the explicit `order` list) that
is contained in `u` as a case-sensitive substring. -/
def slowSearch (order : List String) (u : String) : String :=
  (order.find? (fun name => containsSub name.data u.data)).getD ""

/-- `BotUAManager.fastSearch` (botmanager.go lines 225-228), dropping the
boolean.  The `getD` default stands for the nil-dereference that C9 rules
out. -/
def fastSearch (pats : List String) (u : String) : String :=
  ((acSearch pats u).getD ("", false)).1

/-- C1.  Failing input for the fast/slow equivalence: with the single
pattern "ab" and input "aab", the automaton walks root→a, then falls back
to the root on the second 'a' WITHOUT re-attempting the child 'a', and on
'b' the root has no child, so `fastSearch` reports no hit — while
`slowSearch` finds the substring "ab".  The two modes disagree on the hit
verdict for this index and input. -/
theorem c1_fast_slow_disagree :
    fastSearch ["ab"] "aab" = "" ∧ acSearch ["ab"] "aab" = some ("", false) ∧
      slowSearch ["ab"] "aab" = "ab" := by
  decide

/-- C2.  Failing input for the Search contract: with patterns "abc" and
"b", the occurrence of "b" in "ab" ends at the node `ab`, whose suffix
link points to the output node `b`; the code checks only the node's own
`output` flag, so `Search("ab")` returns `("", false)` although the
pattern "b" occurs as a substring (an output on the suffix-link chain of
the reached node). -/
theorem c2_search_misses_suffix_output :
    acSearch ["abc", "b"] "ab" = some ("", false) ∧
      containsSub "b".data "ab".data = true := by
  decide

/-! ### Termination of `Search` (C9): the fuel never runs out and no nil
suffix link is ever followed -/

lemma isNode_nil (pats : List (List Char)) : isNode pats [] = true := rfl

lemma mem_le_foldr_max (n : Nat) (l : List Nat) (h : n ∈ l) :
    n ≤ l.foldr max 0 := by
  induction l with
  | nil => cases h
  | cons a t ih =>
    rcases List.mem_cons.mp h with rfl | h1
    · exact le_max_left _ _
    · exact le_trans (ih h1) (le_max_right _ _)

lemma isNode_length_le (pats : List (List Char)) (r : List Char)
    (h : isNode pats r = true) :
    r.length ≤ (pats.map List.length).foldr max 0 := by
  unfold isNode at h
  rcases Bool.or_eq_true_iff.mp h with h1 | h1
  · rw [List.isEmpty_iff] at h1
    simp [h1]
  · rw [List.any_eq_true] at h1
    obtain ⟨p, hp, hpre⟩ := h1
    rw [List.isPrefixOf_iff_prefix] at hpre
    have h2 : r.length ≤ p.length := by
      have := hpre.length_le
      simpa using this
    have h3 : p.length ∈ pats.map List.length := List.mem_map_of_mem _ hp
    exact le_trans h2 (mem_le_foldr_max _ _ h3)

lemma isNode_parent (pats : List (List Char)) (c : Char) (w : List Char)
    (h : isNode pats (c :: w) = true) : isNode pats w = true := by
  unfold isNode at h ⊢
  rcases Bool.or_eq_true_iff.mp h with h1 | h1
  · simp at h1
  · rw [Bool.or_eq_true]
    cases w with
    | nil => exact Or.inl rfl
    | cons d w' =>
      right
      rw [List.any_eq_true] at h1 ⊢
      obtain ⟨p, hp, hpre⟩ := h1
      refine ⟨p, hp, ?_⟩
      rw [List.isPrefixOf_iff_prefix] at hpre ⊢
      have hstep : (d :: w').reverse <+: (c :: d :: w').reverse := by
        rw [List.reverse_cons c]
        exact List.prefix_append _ _
      exact hstep.trans hpre

/-- The suffix-link computation succeeds on `w`, yields a trie node, and
strictly shortens any non-root node. -/
def slinkOk (pats : List (List Char)) (fuel : Nat) (w : List Char) : Prop :=
  ∃ q, slink pats fuel w = some q ∧ isNode pats q = true ∧
    (w = [] → q = []) ∧ (w ≠ [] → q.length < w.length)

lemma chase_total (pats : List (List Char)) (fuel : Nat) (c : Char)
    (a : List Char)
    (ih : ∀ v, isNode pats v = true → v.length < fuel → slinkOk pats fuel v)
    (ha : 2 ≤ a.length ∨ a = [c]) :
    ∀ (m : Nat) (p : List Char), isNode pats p = true → p.length < m →
      p.length < fuel → p.length + 1 ≤ a.length →
      ∃ q, slinkChase pats (slink pats fuel) c a m p = some q ∧
        isNode pats q = true ∧ q.length < a.length := by
  intro m
  induction m with
  | zero =>
    intro p _ hm _ _
    omega
  | succ n ihm =>
    intro p hp hm hfuel hpa
    obtain ⟨q, hq, hqnode, hqnil, hqlt⟩ := ih p hp hfuel
    simp only [slinkChase, hq]
    by_cases hcond : isNode pats (c :: q) = true ∧ c :: q ≠ a
    · rw [if_pos hcond]
      refine ⟨c :: q, rfl, hcond.1, ?_⟩
      by_cases hpe : p = []
      · have hq0 : q = [] := hqnil hpe
        rcases ha with ha2 | hac
        · rw [hq0]
          simp only [List.length_cons, List.length_nil]
          omega
        · exact absurd (by rw [hq0, hac]) hcond.2
      · have hql : q.length < p.length := hqlt hpe
        simp only [List.length_cons]
        omega
    · rw [if_neg hcond]
      by_cases hqe : q = []
      · subst hqe
        cases fuel with
        | zero => omega
        | succ f =>
          simp only [show slink pats (f + 1) [] = some [] from rfl, if_pos rfl]
          refine ⟨[], rfl, isNode_nil pats, ?_⟩
          rcases ha with ha2 | hac
          · simp only [List.length_nil]
            omega
          · rw [hac]
            simp
      · have hpe : p ≠ [] := by
          intro hc
          exact hqe (hqnil hc)
        have hqlen : q.length < p.length := hqlt hpe
        obtain ⟨q2, hq2, _, _, hq2lt⟩ := ih q hqnode (by omega)
        simp only [hq2]
        have hq2len : q2.length < q.length := hq2lt hqe
        rw [if_neg (by
          intro hc
          rw [hc] at hq2len
          omega)]
        exact ihm q hqnode (by omega) (by omega) (by omega)

/-- The suffix-link resolution of `buildLinks`/`setSuffixLink` succeeds
on every trie node given fuel beyond the node's depth: no nil suffix
link remains after construction, and every chase terminates. -/
lemma slink_total (pats : List (List Char)) :
    ∀ (fuel : Nat) (w : List Char), isNode pats w = true → w.length < fuel →
      slinkOk pats fuel w := by
  intro fuel
  induction fuel with
  | zero =>
    intro w _ h
    omega
  | succ fuel ih =>
    intro w hw hlen
    cases w with
    | nil =>
      exact ⟨[], rfl, isNode_nil pats, fun _ => rfl, fun h => absurd rfl h⟩
    | cons c w' =>
      have hw' : isNode pats w' = true := isNode_parent pats c w' hw
      have hlen' : w'.length < fuel := by
        simp only [List.length_cons] at hlen
        omega
      have ha : 2 ≤ (c :: w').length ∨ (c :: w') = [c] := by
        cases w' with
        | nil => exact Or.inr rfl
        | cons d t =>
          left
          simp only [List.length_cons]
          omega
      obtain ⟨q, hq, hqnode, hqlt⟩ := chase_total pats fuel c (c :: w') ih ha
        fuel w' hw' hlen' hlen' (by simp)
      refine ⟨q, ?_, hqnode, ?_, ?_⟩
      · rw [show slink pats (fuel + 1) (c :: w')
          = slinkChase pats (slink pats fuel) c (c :: w') fuel w' from rfl]
        exact hq
      · intro hc
        cases hc
      · intro _
        exact hqlt

/-- Every step of the search loop succeeds: the child is a trie node or
the suffix link (resolved with `slinkFuel` fuel) exists and is a node. -/
lemma searchLoop_total (pats : List (List Char)) :
    ∀ (input curr : List Char), isNode pats curr = true →
      ∃ r, searchLoop pats (slinkFuel pats) curr input = some r := by
  intro input
  induction input with
  | nil =>
    intro curr _
    exact ⟨_, rfl⟩
  | cons l rest ih =>
    intro curr hcurr
    by_cases hchild : isNode pats (l :: curr) = true
    · by_cases hout : isOut pats (l :: curr) = true
      · exact ⟨(endsHere pats (l :: curr), true),
          by simp [searchLoop, hchild, hout]⟩
      · obtain ⟨r, hr⟩ := ih (l :: curr) hchild
        exact ⟨r, by simp [searchLoop, hchild, hout, hr]⟩
    · have hlen : curr.length < slinkFuel pats := by
        have := isNode_length_le pats curr hcurr
        unfold slinkFuel
        omega
      obtain ⟨q, hq, hqnode, _, _⟩ :=
        slink_total pats (slinkFuel pats) curr hcurr hlen
      by_cases hout : isOut pats q = true
      · exact ⟨(endsHere pats q, true),
          by simp [searchLoop, hchild, hq, hout]⟩
      · obtain ⟨r, hr⟩ := ih q hqnode
        exact ⟨r, by simp [searchLoop, hchild, hq, hout, hr]⟩

/-- C9.  For every pattern set (in particular every `RobotsIndex` key
set, including the empty one) and every input string, `Search` on the
automaton built by `NewFromIndex` terminates with a result: the loop
consumes exactly one input character per iteration (it is structural in
the input), and no step ever follows a nil suffix link — every node
reachable during the search has its suffix link resolved (`none` never
arises). -/
theorem c9_acSearch_total (pats : List String) (s : String) :
    ∃ r, acSearch pats s = some r := by
  unfold acSearch
  exact searchLoop_total (pats.map String.data) s.data [] (isNode_nil _)

/-! ## `BotUAManager` (botmanager.go lines 19-262)

State embedding:
  * `ahoCorasick` stores the pattern set the automaton was built from —
    the built automaton is a pure function of that set — with `none` for
    the nil pointer (zero-value manager, or slow-match manager before any
    build);
  * `cache` is `none` for the nil pointer of a zero-value manager;
  * time is abstracted to the boolean outcome of the deadline comparison
    `time.Now().Compare(b.nextUpdate) >= 0` (`nextUpdateDue`); both
    refresh outcomes move the deadline into the future (the configured
    intervals are positive durations), clearing the flag;
  * `sources` holds each configured source's `GetIndex` outcome at the
    refresh instant (network input data);
  * `tmpl` is the loaded `text/template` applied to the user-agent list
    (`template.Execute`), an arbitrary function that may fail — the
    built-in templates never fail but a user-supplied template file can;
  * the mutex and the log calls have no sequential content and are
    dropped. -/

structure BotUAManager where
  ahoCorasick : Option (List String)
  botIndex : RobotsIndex
  cache : Option userAgentCache
  nextUpdateDue : Bool
  searchFast : Bool
  sources : List (Except String RobotsIndex)
  tmpl : List String → Except String String
  templateCache : String

/-- `errBotManagerNoInit` (botmanager.go lines 19-21). -/
def errBotManagerNoInit : String :=
  "attempted to search uninitialized BotManager. Ensure it is created with the New() constructor"

/-- The source loop of `update` (botmanager.go lines 233-243): fetch and
parse each source in order, merging into the accumulator with
later-source-wins map assignment; the first error aborts. -/
def mergeSources (acc : RobotsIndex) :
    List (Except String RobotsIndex) → Except String RobotsIndex
  | [] => .ok acc
  | .error e :: _ => .error e
  | .ok n :: rs => mergeSources (n.foldl (fun a kv => mapAssign kv.1 kv.2 a) acc) rs

/-- `update` (botmanager.go lines 231-262).  `ord` is the map iteration
order over the new index used to build `uAList` for the template.  On a
source error the manager is returned untouched.  After a successful
merge, the index, the matcher (when `searchFast`) and a fresh empty cache
of the same capacity are installed and the template cache is reset BEFORE
the template is executed; a render failure therefore returns an error
with the new state already published (the partially written buffer is
embedded as the reset, empty one).  A nil `cache` would panic in Go; the
`Option.map` leaves it `none` (unreachable from a constructed manager). -/
def update (ord : List String) (b : BotUAManager) :
    Except String Unit × BotUAManager :=
  match mergeSources [] b.sources with
  | .error e => (.error e, b)
  | .ok newI =>
    let b1 : BotUAManager :=
      { b with
        botIndex := newI
        ahoCorasick := if b.searchFast then some (keysOf newI) else b.ahoCorasick
        cache := b.cache.map (fun c => newUserAgentCache c.limit)
        templateCache := "" }
    match b.tmpl ord with
    | .error e => (.error e, b1)
    | .ok s => (.ok (), { b1 with templateCache := s })

/-- `refreshBotIndex` (botmanager.go lines 184-208): under the mutex,
refresh when the deadline has passed; both outcomes set a new future
deadline (retry interval on failure, update interval on success) and the
update's error is RETURNED to the caller. -/
def refreshBotIndex (ord : List String) (b : BotUAManager) :
    Except String Unit × BotUAManager :=
  if b.nextUpdateDue then
    match update ord b with
    | (.error e, b') => (.error e, { b' with nextUpdateDue := false })
    | (.ok _, b') => (.ok (), { b' with nextUpdateDue := false })
  else (.ok (), b)

/-- The matcher call of `fastSearch`: a nil automaton pointer would panic
(`none` is unreachable for a `searchFast` manager built by `update`). -/
def mgrFastSearch (auto : Option (List String)) (u : String) : String :=
  match auto with
  | none => ""
  | some pats => fastSearch pats u

/-- `BotUAManager.Search` (botmanager.go lines 156-181).  Returns the Go
triple `(botName, botInfo, err)` — `err` is `some` for a non-nil error —
together with the manager state after the call.  `ord` is the template
iteration order used by a triggered refresh, `slowOrd` the index
iteration order used by `slowSearch`. -/
def BotUAManager.Search (b : BotUAManager) (ord slowOrd : List String)
    (u : String) : (String × BotUserAgent × Option String) × BotUAManager :=
  match b.cache with
  | none => (("", default, some errBotManagerNoInit), b)
  | some _ =>
    match refreshBotIndex ord b with
    | (.error e, b') => (("", default, some e), b')
    | (.ok _, b') =>
      match b'.cache with
      | none => (("", default, some errBotManagerNoInit), b')
      | some c =>
        match c.get u with
        | (v, true) => ((v, (mapLookup v b'.botIndex).getD default, none), b')
        | (_, false) =>
          let botName := if b'.searchFast then mgrFastSearch b'.ahoCorasick u
            else slowSearch slowOrd u
          ((botName, (mapLookup botName b'.botIndex).getD default, none),
            { b' with cache := some (c.set u botName) })

/-- `RenderRobotsTxt` (botmanager.go lines 130-153): refresh if due, then
either render fresh from the current index (map iteration order
`ordFresh`) or stream the stored rendering through a tee that restores
the buffer.  The returned string is what is written to `w`. -/
def BotUAManager.RenderRobotsTxt (b : BotUAManager)
    (ordRefresh ordFresh : List String) (useCache : Bool) :
    Except String String × BotUAManager :=
  match refreshBotIndex ordRefresh b with
  | (.error e, b') => (.error e, b')
  | (.ok _, b') =>
    if !useCache then
      match b'.tmpl ordFresh with
      | .error e => (.error e, b')
      | .ok s => (.ok s, b')
    else
      (.ok b'.templateCache, b')

/-- `config.RobotsTxtDefault` rendered by `text/template` over the
user-agent list: a leading newline, one `\nUser-agent: <name>` per name
(the `{{- end }}` trims the newline before it), then `\nDisallow: /\n`. -/
def renderDefault (uAList : List String) : String :=
  "\n" ++ String.join (uAList.map (fun a => "\nUser-agent: " ++ a))
    ++ "\nDisallow: /\n"

deriving instance DecidableEq for Except

/-- The zero-value `BotUAManager` (not built by `New`): nil automaton,
nil cache, nil template (calling it would panic — embedded as an error),
nil index map, zero `nextUpdate` time (always in the past, so the
deadline comparison holds). -/
def zeroBotUAManager : BotUAManager :=
  { ahoCorasick := none
    botIndex := []
    cache := none
    nextUpdateDue := true
    searchFast := false
    sources := []
    tmpl := fun _ => .error "nil template"
    templateCache := "" }

/-- C10.  `Search` on a zero-value manager returns the sentinel
`errBotManagerNoInit` with an empty bot name and empty metadata, without
touching the state (in particular without performing a refresh). -/
theorem c10_search_uninit (ord slowOrd : List String) (u : String) :
    zeroBotUAManager.Search ord slowOrd u
      = (("", default, some errBotManagerNoInit), zeroBotUAManager) := rfl

/-- A manager whose single source succeeds but whose (user-supplied)
template fails to execute. -/
def tmplFailMgr : BotUAManager :=
  { ahoCorasick := none
    botIndex := []
    cache := some (newUserAgentCache 1)
    nextUpdateDue := true
    searchFast := true
    sources := [.ok [("A", default)]]
    tmpl := fun _ => .error "template exec failed"
    templateCache := "old rendering" }

/-- A manager whose single source fails to fetch. -/
def srcFailMgr : BotUAManager :=
  { ahoCorasick := none
    botIndex := [("GPTBot", default)]
    cache := some (newUserAgentCache 1)
    nextUpdateDue := true
    searchFast := false
    sources := [.error "fetch failed"]
    tmpl := fun o => .ok (renderDefault o)
    templateCache := "" }

/-- C3 counterexample.  `update` publishes the new index (and matcher and
reset cache) BEFORE executing the template, so when the template fails
the refresh returns a non-nil error with the bot index already replaced:
the published state is not identical to its value before the refresh. -/
theorem c3_counterexample :
    (update ["A"] tmplFailMgr).1 = .error "template exec failed" ∧
    tmplFailMgr.botIndex = [] ∧
    (update ["A"] tmplFailMgr).2.botIndex = [("A", default)] := by
  decide

/-- C3 amended.  When a refresh fails because a source fetch or parse
fails, the published state is fully unchanged (the manager is returned
untouched, so index, matcher, cache and template cache are identical);
when the refresh instead fails while rendering the template, the error is
returned but the new index, the rebuilt matcher (under `searchFast`) and
a fresh empty cache are already published and the template cache has been
reset. -/
theorem c3_amended (ord : List String) (b : BotUAManager) :
    (∀ e, mergeSources [] b.sources = .error e → update ord b = (.error e, b)) ∧
    (∀ newI e, mergeSources [] b.sources = .ok newI → b.tmpl ord = .error e →
      (update ord b).1 = .error e ∧
      (update ord b).2.botIndex = newI ∧
      (update ord b).2.ahoCorasick
        = (if b.searchFast then some (keysOf newI) else b.ahoCorasick) ∧
      (update ord b).2.cache = b.cache.map (fun c => newUserAgentCache c.limit) ∧
      (update ord b).2.templateCache = "") := by
  constructor
  · intro e he
    simp only [update, he]
  · intro newI e hok htmpl
    simp only [update, hok, htmpl]
    simp

/-- Witness for C3's amended claim at concrete managers. -/
theorem c3_amended_witness :
    update ["A"] srcFailMgr = (.error "fetch failed", srcFailMgr) ∧
    (update ["A"] tmplFailMgr).2.botIndex = [("A", default)] :=
  ⟨(c3_amended ["A"] srcFailMgr).1 "fetch failed" rfl,
    ((c3_amended ["A"] tmplFailMgr).2 [("A", default)] "template exec failed"
      rfl rfl).2.1⟩

/-- C4 counterexample.  `srcFailMgr` holds a usable prior index
(`GPTBot`), yet a `Search` whose triggered lazy refresh fails returns the
non-nil refresh error and an empty classification instead of classifying
against the prior state — `refreshBotIndex` returns the update error and
`Search` propagates it unconditionally. -/
theorem c4_counterexample :
    srcFailMgr.botIndex ≠ [] ∧
    (srcFailMgr.Search [] ["GPTBot"] "some UA").1
      = ("", default, some "fetch failed") ∧
    (srcFailMgr.Search [] ["GPTBot"] "some UA").2.botIndex
      = srcFailMgr.botIndex := by
  decide

/-- C4 amended.  When the triggered lazy refresh fails, `Search` returns
the refresh error with an empty name and empty metadata even when a
usable prior index exists (the prior index itself is kept for later
calls); when no refresh is due, `Search` returns a nil error and
classifies against the current state. -/
theorem c4_amended (ord slowOrd : List String) (b : BotUAManager)
    (u : String) (c : userAgentCache) (hc : b.cache = some c) :
    (∀ e, b.nextUpdateDue = true → mergeSources [] b.sources = .error e →
      (b.Search ord slowOrd u).1 = ("", default, some e) ∧
      (b.Search ord slowOrd u).2.botIndex = b.botIndex) ∧
    (b.nextUpdateDue = false → (b.Search ord slowOrd u).1.2.2 = none) := by
  constructor
  · intro e hdue he
    simp only [BotUAManager.Search, hc, refreshBotIndex, hdue, update, he]
    exact ⟨rfl, rfl⟩
  · intro hdue
    simp only [BotUAManager.Search, hc, refreshBotIndex, hdue]
    rcases hget : c.get u with ⟨v, hit⟩
    cases hit
    · simp [hget, hc]
    · simp [hget, hc]

/-- A manager with a usable index and no refresh due. -/
def freshMgr : BotUAManager := { srcFailMgr with nextUpdateDue := false }

/-- Witness for C4's amended claim at concrete managers. -/
theorem c4_amended_witness :
    (srcFailMgr.Search [] ["GPTBot"] "ua").1 = ("", default, some "fetch failed") ∧
    (freshMgr.Search [] ["GPTBot"] "ua").1.2.2 = none :=
  ⟨((c4_amended [] ["GPTBot"] srcFailMgr "ua" (newUserAgentCache 1) rfl).1
      "fetch failed" rfl rfl).1,
    (c4_amended [] ["GPTBot"] freshMgr "ua" (newUserAgentCache 1) rfl).2 rfl⟩

/-- A manager holding a two-name index whose template cache was rendered
with iteration order `["A", "B"]`. -/
def twoNameMgr : BotUAManager :=
  { ahoCorasick := none
    botIndex := [("A", default), ("B", default)]
    cache := some (newUserAgentCache 1)
    nextUpdateDue := false
    searchFast := false
    sources := []
    tmpl := fun o => .ok (renderDefault o)
    templateCache := renderDefault ["A", "B"] }

/-- C8 counterexample.  With no refresh in between, the cached rendering
streams the bytes stored for iteration order `["A", "B"]`, while a fresh
rendering may iterate the two-name map in order `["B", "A"]` (Go map
iteration order is unspecified and varies between iterations) — the two
consecutive invocations then write different bytes. -/
theorem c8_counterexample :
    List.Perm ["B", "A"] (keysOf twoNameMgr.botIndex) ∧
    (twoNameMgr.RenderRobotsTxt [] ["B", "A"] true).1
      = .ok (renderDefault ["A", "B"]) ∧
    (twoNameMgr.RenderRobotsTxt [] ["B", "A"] false).1
      = .ok (renderDefault ["B", "A"]) ∧
    renderDefault ["A", "B"] ≠ renderDefault ["B", "A"] := by
  decide

lemma perm_eq_of_short (l1 l2 : List String) (h : l1.Perm l2)
    (hl : l2.length ≤ 1) : l1 = l2 := by
  cases l2 with
  | nil => exact List.Perm.eq_nil h
  | cons a t =>
    cases t with
    | nil => exact List.perm_singleton.mp h
    | cons b t2 => simp at hl

/-- C8 amended.  With no refresh in between, the cached invocation
streams exactly the stored rendering and the fresh invocation renders
over the current map iteration order; the two consecutive outputs are
byte-equal whenever that order coincides with the one used for the
stored rendering — in particular always when the index has at most one
entry — but with two or more entries differing iteration orders can
produce different bytes. -/
theorem c8_amended (b : BotUAManager) (o1 o2 : List String)
    (hdue : b.nextUpdateDue = false)
    (htmpl : b.tmpl = fun o => Except.ok (renderDefault o))
    (hcache : b.templateCache = renderDefault o1)
    (h1 : o1.Perm (keysOf b.botIndex))
    (h2 : o2.Perm (keysOf b.botIndex))
    (hsmall : (keysOf b.botIndex).length ≤ 1 ∨ o1 = o2) :
    (b.RenderRobotsTxt o1 o1 true).1 = .ok (renderDefault o1) ∧
    (b.RenderRobotsTxt o1 o2 false).1 = .ok (renderDefault o2) ∧
    renderDefault o1 = renderDefault o2 := by
  have ho : o1 = o2 := by
    rcases hsmall with hlen | heq
    · have e1 : o1 = keysOf b.botIndex := perm_eq_of_short _ _ h1 hlen
      have e2 : o2 = keysOf b.botIndex := perm_eq_of_short _ _ h2 hlen
      rw [e1, e2]
    · exact heq
  refine ⟨?_, ?_, by rw [ho]⟩
  · simp only [BotUAManager.RenderRobotsTxt, refreshBotIndex, hdue]
    simp [hcache]
  · simp only [BotUAManager.RenderRobotsTxt, refreshBotIndex, hdue]
    simp [htmpl]

/-- A manager with a single-name index and matching template cache. -/
def oneNameMgr : BotUAManager :=
  { twoNameMgr with
    botIndex := [("A", default)]
    templateCache := renderDefault ["A"] }

/-- Witness for C8's amended claim at a concrete manager. -/
theorem c8_amended_witness :
    (oneNameMgr.RenderRobotsTxt ["A"] ["A"] true).1 = .ok (renderDefault ["A"]) ∧
    (oneNameMgr.RenderRobotsTxt ["A"] ["A"] false).1 = .ok (renderDefault ["A"]) ∧
    renderDefault ["A"] = renderDefault ["A"] :=
  c8_amended oneNameMgr ["A"] ["A"] rfl rfl rfl (by decide) (by decide)
    (Or.inl (by decide))

end BotWrangler
